import Mathlib

/-!
Shallow embedding of the rust-sitter grammar generator
(`src/tool/src/lib.rs`) and verification of its specification.

The Rust code walks a `syn` schema tree (modules containing enums whose
variants carry leaf-annotated fields) and produces, per grammar-marked
module, a JSON grammar object.  We embed:

  * the schema data (attributes, literals, expressions, fields, variants,
    enums, items and modules) as inductive types carrying exactly the
    information the Rust code consumes;
  * the produced JSON rules as an explicit `Rule` type (the code only ever
    emits PATTERN / SEQ / CHOICE / ALIAS objects whose members are SYMBOL
    objects);
  * the rule map as an association list with insert-or-replace semantics,
    matching `serde_json::Map::insert` (one value per key; inserting an
    existing key replaces the value);
  * every Rust abort (`unwrap`, `expect`, `panic!`, `todo!`) as an
    `Except.error` carrying a `RustPanic` marker, so that abortion is
    observable in the embedding.
-/

namespace RustSitter

/-- A parsed literal, as in `syn::Lit` (only the distinction the code
inspects: string literal, or some other literal). -/
inductive Lit where
  | str (s : String)
  | other
deriving DecidableEq, Repr

/-- An attribute-argument expression, as in `syn::Expr` (the code only
distinguishes literal expressions from everything else). -/
inductive AttrExpr where
  | lit (l : Lit)
  | nonLit
deriving DecidableEq, Repr

/-- An attribute on a schema item, as in `syn::Attribute`.  `path` is the
attribute path rendered as a string (e.g. `"rust_sitter::leaf"`).  `args`
is the result of `parse_args_with(Punctuated::<NameValueExpr, _>)`:
`some pairs` when the argument tokens parse as comma-separated
`name = expr` pairs, `none` when that parse fails. -/
structure Attr where
  path : String
  args : Option (List (String × AttrExpr))
deriving DecidableEq, Repr

/-- A field of an enum variant, as in `syn::Field`: an optional name and
its attributes. -/
structure SchemaField where
  ident : Option String
  attrs : List Attr
deriving DecidableEq, Repr

/-- An enum variant, as in `syn::Variant`. -/
structure Variant where
  ident : String
  fields : List SchemaField
deriving DecidableEq, Repr

/-- An enum definition, as in `syn::ItemEnum`. -/
structure EnumDef where
  attrs : List Attr
  ident : String
  variants : List Variant
deriving DecidableEq, Repr

/-- A schema item, as in `syn::Item`: an enum, a module (attributes, name,
optional content), or anything else. -/
inductive Item where
  | enumItem (e : EnumDef)
  | modItem (attrs : List Attr) (ident : String) (content : Option (List Item))
  | otherItem

/-- The fields of a `syn::ItemMod` that the code reads. -/
structure ItemMod where
  attrs : List Attr
  ident : String
  content : Option (List Item)

/-- A member of a SEQ/CHOICE rule: the code only ever emits
`{"type": "SYMBOL", "name": ...}` members. -/
inductive RuleMember where
  | symbol (name : String)
deriving DecidableEq, Repr

/-- A compiled rule: the four JSON shapes the code emits. -/
inductive Rule where
  | pattern (value : String)
  | seq (members : List RuleMember)
  | choice (members : List RuleMember)
  | aliasRule (named : Bool) (value : String) (content : RuleMember)
deriving DecidableEq, Repr

/-- The rule map: `serde_json::Map<String, Value>` restricted to the rules
the code inserts, modelled as an association list with at most one entry
per key. -/
abbrev RuleMap := List (String × Rule)

/-- `serde_json::Map::insert`: if the key is present, replace its value in
place; otherwise append the new entry. -/
def insertRule : RuleMap → String → Rule → RuleMap
  | [], k, v => [(k, v)]
  | p :: rest, k, v =>
    if p.1 = k then (k, v) :: rest else p :: insertRule rest k v

/-- The produced grammar object `{"name": "grammar", "rules": ...}`. -/
structure GrammarObject where
  name : String
  rules : RuleMap
deriving DecidableEq, Repr

/-- A Rust process abort, observable in the embedding: `Option::unwrap` on
`None` / `Result::unwrap` on `Err`, `expect` with a message, `panic!` with
a message, or `todo!`. -/
inductive RustPanic where
  | unwrapNone
  | expectMsg (msg : String)
  | panicMsg (msg : String)
  | todoUnimplemented
deriving DecidableEq, Repr

/-- `Option::unwrap`. -/
def unwrapOpt : Option α → Except RustPanic α
  | some a => .ok a
  | none => .error .unwrapNone

/-- `gen_leaf` from the source: finds the `rust_sitter::leaf` attribute
(`unwrap`), parses its arguments as `name = value` pairs (`unwrap`), looks
for the `pattern` parameter, and inserts a PATTERN rule when its value is
a string literal; a non-string literal is `panic!("Expected pattern to be
a string literal")` and a missing or non-literal pattern is `todo!()`. -/
def gen_leaf (path : String) (leaf : SchemaField) (out : RuleMap) :
    Except RustPanic RuleMap := do
  let leaf_attr ← unwrapOpt
    (leaf.attrs.find? (fun attr => attr.path == "rust_sitter::leaf"))
  let leaf_params ← unwrapOpt leaf_attr.args
  let pattern_param :=
    (leaf_params.find? (fun param => param.1 == "pattern")).map (fun p => p.2)
  match pattern_param with
  | some (AttrExpr.lit l) =>
    match l with
    | .str s => pure (insertRule out path (.pattern s))
    | _ => throw (.panicMsg "Expected pattern to be a string literal")
  | _ => throw .todoUnimplemented

/-- The identifier a field contributes to its path: the field name when
present, otherwise the decimal rendering of its position
(`field.ident.map(to_string).unwrap_or(format!("{}", i))`). -/
def fieldIdentStr (i : Nat) (field : SchemaField) : String :=
  field.ident.getD (toString i)

/-- The rule key of an enumerated field:
`format!("{}_{}", path, ident_str)`. -/
def fieldKey (path : String) (p : Nat × SchemaField) : String :=
  path ++ "_" ++ fieldIdentStr p.1 p.2

/-- `gen_enum_variant` from the source: one `gen_leaf` per field (keyed
`path_identStr`), then a SEQ rule keyed `path` whose members are SYMBOL
references to the fields' keys in declaration order. -/
def gen_enum_variant (path : String) (variant : Variant) (out : RuleMap) :
    Except RustPanic RuleMap := do
  let out ← variant.fields.enum.foldlM
    (fun out p => gen_leaf (fieldKey path p) p.2 out)
    out
  let children := variant.fields.enum.map
    (fun p => RuleMember.symbol (fieldKey path p))
  pure (insertRule out path (.seq children))

/-- The root detection performed by the `find_map` in `generate_grammar`:
an enum item carrying the `rust_sitter::language` attribute yields its
identifier; any other item yields nothing. -/
def item_root : Item → Option String
  | .enumItem e =>
    if e.attrs.any (fun attr => attr.path == "rust_sitter::language") then
      some e.ident
    else
      none
  | _ => none

/-- The rule key of an enum variant: `format!("{}_{}", e.ident, v.ident)`. -/
def variantPath (enumIdent : String) (v : Variant) : String :=
  enumIdent ++ "_" ++ v.ident

/-- The body of `generate_grammar`'s per-enum work: compile every variant
(via `gen_enum_variant`, keyed `Enum_Variant`), then insert a CHOICE rule
keyed by the enum's identifier whose members are SYMBOL references to the
variants' keys in declaration order. -/
def gen_enum (e : EnumDef) (rules : RuleMap) : Except RustPanic RuleMap := do
  let rules ← e.variants.foldlM
    (fun rules v => gen_enum_variant (variantPath e.ident v) v rules)
    rules
  let members := e.variants.map
    (fun v => RuleMember.symbol (variantPath e.ident v))
  pure (insertRule rules e.ident (.choice members))

/-- The match in `generate_grammar`'s `for_each` over the module contents:
enums are compiled, every other item is `panic!()` (with an empty
message). -/
def gen_item (rules : RuleMap) (c : Item) : Except RustPanic RuleMap :=
  match c with
  | .enumItem e => gen_enum e rules
  | _ => throw (.panicMsg "")

/-- `generate_grammar` from the source: unwrap the module contents, locate
the root type (the first `rust_sitter::language`-marked enum; `expect`
aborts when there is none), insert the `source_file` ALIAS rule, compile
every content item, and wrap the rule map as
`{"name": "grammar", "rules": ...}`. -/
def generate_grammar (module : ItemMod) : Except RustPanic GrammarObject := do
  let contents ← unwrapOpt module.content
  let root_type ← match contents.findSome? item_root with
    | some id => pure id
    | none => throw (.expectMsg
        "Each parser must have the root type annotated with `#[rust_sitter::language]`")
  let rules_map : RuleMap :=
    insertRule [] "source_file"
      (.aliasRule false root_type (.symbol root_type))
  let rules_map ← contents.foldlM gen_item rules_map
  pure { name := "grammar", rules := rules_map }

mutual

/-- `generate_all_grammars` from the source: recurse into a module's
content (if any), then, when the module carries the `rust_sitter::grammar`
attribute, append the grammar generated from it; non-module items are
skipped. -/
def generate_all_grammars (i : Item) (out : List GrammarObject) :
    Except RustPanic (List GrammarObject) :=
  match i with
  | .modItem attrs ident content => do
    let out ← match content with
      | some items => generate_all_grammars_list items out
      | none => pure out
    if attrs.any (fun a => a.path == "rust_sitter::grammar") then do
      let g ← generate_grammar ⟨attrs, ident, content⟩
      pure (out ++ [g])
    else
      pure out
  | _ => pure out

/-- The `for_each` over a module's content items in
`generate_all_grammars`, threading the output vector. -/
def generate_all_grammars_list (items : List Item) (out : List GrammarObject) :
    Except RustPanic (List GrammarObject) :=
  match items with
  | [] => pure out
  | i :: rest => do
    let out ← generate_all_grammars i out
    generate_all_grammars_list rest out

end

/-! ### Specification-side helper definitions -/

/-- The SYMBOL names referenced by the members of a SEQ or CHOICE rule
(other rule kinds have none, as far as the closure claim is concerned). -/
def ruleSymbols : Rule → List String
  | .seq ms => ms.map (fun m => match m with | .symbol n => n)
  | .choice ms => ms.map (fun m => match m with | .symbol n => n)
  | _ => []

/-- Whether `k` is a key of the rule map. -/
def hasKey (m : RuleMap) (k : String) : Bool :=
  m.any (fun p => p.1 = k)

/-- The value stored at key `k` (the map has at most one entry per key). -/
def lookupRule (m : RuleMap) (k : String) : Option Rule :=
  (m.find? (fun p => p.1 = k)).map (fun p => p.2)

/-- Closure: every SYMBOL name referenced from a SEQ or CHOICE rule of the
map is itself a key of the map. -/
def MapClosed (m : RuleMap) : Prop :=
  ∀ p ∈ m, ∀ s ∈ ruleSymbols p.2, hasKey m s = true

/-- The identifiers of the `rust_sitter::language`-marked enums of a
module content, in order. -/
def rootsOf (contents : List Item) : List String :=
  contents.filterMap item_root

/-- All rule keys `gen_enum_variant` may insert for a variant at `path`:
the variant's own key and one key per field. -/
def variantKeys (path : String) (v : Variant) : List String :=
  path :: v.fields.enum.map (fun p => fieldKey path p)

/-- All rule keys `gen_enum` may insert for an enum: the enum's own key
and the keys of all its variants. -/
def enumKeys (e : EnumDef) : List String :=
  e.ident :: (e.variants.map (fun v => variantKeys (variantPath e.ident v) v)).flatten

/-- All rule keys compiling an item may insert. -/
def itemKeys : Item → List String
  | .enumItem e => enumKeys e
  | _ => []

/-- Modelled from the spec: one grammar object per discovered group, in
discovery order, failing as soon as one group fails.  Used to state the
refinement property of `generate_all_grammars`. -/
def grammarsOfMods : List ItemMod → Except RustPanic (List GrammarObject)
  | [] => pure []
  | m :: rest => do
    let g ← generate_grammar m
    let gs ← grammarsOfMods rest
    pure (g :: gs)

mutual

/-- The grammar-marked modules discovered anywhere in an item, in the
order `generate_all_grammars` visits them (content first, then the item
itself). -/
def grammarMods (i : Item) : List ItemMod :=
  match i with
  | .modItem attrs ident content =>
    (match content with
     | some items => grammarModsList items
     | none => []) ++
    (if attrs.any (fun a => a.path == "rust_sitter::grammar") then
       [⟨attrs, ident, content⟩]
     else
       [])
  | _ => []

/-- `grammarMods` over a list of items. -/
def grammarModsList (items : List Item) : List ItemMod :=
  match items with
  | [] => []
  | i :: rest => grammarMods i ++ grammarModsList rest

end

/-! ### Concrete schemas used by the scenarios -/

/-- `#[rust_sitter::leaf(pattern = "...")]`. -/
def leafAttr (pat : String) : Attr :=
  ⟨"rust_sitter::leaf", some [("pattern", .lit (.str pat))]⟩

/-- `#[rust_sitter::language]`. -/
def langAttr : Attr := ⟨"rust_sitter::language", some []⟩

/-- `#[rust_sitter::grammar]`. -/
def grammarAttr : Attr := ⟨"rust_sitter::grammar", some []⟩

/-- Scenario 1: one nonterminal `Expr`, one production `Number` with one
unnamed leaf field of pattern `\d+`, `Expr` marked as root. -/
def scenario1 : ItemMod :=
  ⟨[grammarAttr], "grammar",
   some [.enumItem ⟨[langAttr], "Expr",
     [⟨"Number", [⟨none, [leafAttr "\\d+"]⟩]⟩]⟩]⟩

/-- Scenario 2: one root nonterminal `E` with two productions `A` and `B`,
each with zero fields. -/
def scenario2 : ItemMod :=
  ⟨[grammarAttr], "grammar",
   some [.enumItem ⟨[langAttr], "E", [⟨"A", []⟩, ⟨"B", []⟩]⟩]⟩

/-- A group whose root nonterminal is named `source` and has a production
`file`: the production's identity is `source_file`, the same key as the
root alias rule. -/
def sourceFileClashMod : ItemMod :=
  ⟨[grammarAttr], "grammar",
   some [.enumItem ⟨[langAttr], "source", [⟨"file", []⟩]⟩]⟩

/-- A leaf field whose `pattern` value is a non-string literal
(`#[rust_sitter::leaf(pattern = 5)]`). -/
def nonStringPatternField : SchemaField :=
  ⟨none, [⟨"rust_sitter::leaf", some [("pattern", .lit .other)]⟩]⟩

/-- A leaf field whose annotation has no `pattern` parameter
(`#[rust_sitter::leaf()]`). -/
def missingPatternField : SchemaField :=
  ⟨none, [⟨"rust_sitter::leaf", some []⟩]⟩

/-- A group with no `rust_sitter::language`-marked nonterminal. -/
def noRootMod : ItemMod :=
  ⟨[grammarAttr], "grammar",
   some [.enumItem ⟨[], "Expr", [⟨"Number", [⟨none, [leafAttr "\\d+"]⟩]⟩]⟩]⟩

/-- A group with two `rust_sitter::language`-marked nonterminals `A` and
`B`. -/
def twoRootsMod : ItemMod :=
  ⟨[grammarAttr], "grammar",
   some [.enumItem ⟨[langAttr], "A", []⟩, .enumItem ⟨[langAttr], "B", []⟩]⟩

/-- A group in which two entities compile to the same rule identifier:
enum `A`'s variant `B` and the enum named `A_B` both produce the key
`A_B`. -/
def duplicateKeyMod : ItemMod :=
  ⟨[grammarAttr], "grammar",
   some [.enumItem ⟨[langAttr], "A", [⟨"B", []⟩]⟩,
         .enumItem ⟨[], "A_B", []⟩]⟩

/-- A field with no attributes at all (a plain, pattern-less field). -/
def plainField : SchemaField := ⟨none, []⟩

/-- A field whose leaf annotation's arguments do not parse as
`name = value` pairs. -/
def unparsableLeafField : SchemaField :=
  ⟨none, [⟨"rust_sitter::leaf", none⟩]⟩

/-- A group whose only production has a plain (attribute-less) field. -/
def plainFieldMod : ItemMod :=
  ⟨[grammarAttr], "grammar",
   some [.enumItem ⟨[langAttr], "Expr", [⟨"Number", [plainField]⟩]⟩]⟩

/-- A schema tree with grammar-marked modules at two different nesting
depths inside unmarked container modules. -/
def nestedGrammarsItem : Item :=
  .modItem [] "outer"
    (some [.modItem [grammarAttr] "g1"
             (some [.enumItem ⟨[langAttr], "A", []⟩]),
           .modItem [] "mid"
             (some [.modItem [grammarAttr] "g2"
                      (some [.enumItem ⟨[langAttr], "B", []⟩])])])

/-! ### Basic lemmas about the rule map -/

theorem hasKey_insertRule_self (m : RuleMap) (k : String) (v : Rule) :
    hasKey (insertRule m k v) k = true := by
  induction m with
  | nil => simp [insertRule, hasKey]
  | cons p rest ih =>
    by_cases h : p.1 = k
    · simp [insertRule, hasKey, h]
    · simp only [insertRule, if_neg h, hasKey, List.any_cons,
        Bool.or_eq_true, decide_eq_true_eq]
      exact Or.inr (by simpa [hasKey] using ih)

theorem hasKey_insertRule_mono {m : RuleMap} {k' : String} (k : String)
    (v : Rule) (h : hasKey m k' = true) :
    hasKey (insertRule m k v) k' = true := by
  induction m with
  | nil => simp [hasKey] at h
  | cons p rest ih =>
    simp only [hasKey, List.any_cons, Bool.or_eq_true,
      decide_eq_true_eq] at h
    by_cases hpk : p.1 = k
    · rcases h with h | h
      · have hkk : k = k' := by rw [← hpk, h]
        simp [insertRule, hasKey, hpk, hkk]
      · simp only [insertRule, if_pos hpk, hasKey, List.any_cons,
          Bool.or_eq_true, decide_eq_true_eq]
        exact Or.inr h
    · simp only [insertRule, if_neg hpk, hasKey, List.any_cons,
        Bool.or_eq_true, decide_eq_true_eq]
      rcases h with h | h
      · exact Or.inl h
      · exact Or.inr (by simpa [hasKey] using ih (by simpa [hasKey] using h))

theorem mem_insertRule {m : RuleMap} {k : String} {v : Rule}
    {p' : String × Rule} (h : p' ∈ insertRule m k v) :
    p' ∈ m ∨ p' = (k, v) := by
  induction m with
  | nil =>
    simp only [insertRule, List.mem_singleton] at h
    exact Or.inr h
  | cons p rest ih =>
    by_cases hpk : p.1 = k
    · simp only [insertRule, if_pos hpk, List.mem_cons] at h
      rcases h with h | h
      · exact Or.inr h
      · exact Or.inl (List.mem_cons_of_mem _ h)
    · simp only [insertRule, if_neg hpk, List.mem_cons] at h
      rcases h with h | h
      · exact Or.inl (by rw [h]; exact List.mem_cons_self _ _)
      · rcases ih h with h' | h'
        · exact Or.inl (List.mem_cons_of_mem _ h')
        · exact Or.inr h'

theorem lookupRule_cons_of_ne {p : String × Rule} {k : String}
    (m : RuleMap) (h : ¬ p.1 = k) :
    lookupRule (p :: m) k = lookupRule m k := by
  simp [lookupRule, List.find?, h]

theorem lookupRule_cons_of_eq {p : String × Rule} {k : String}
    (m : RuleMap) (h : p.1 = k) :
    lookupRule (p :: m) k = some p.2 := by
  simp [lookupRule, List.find?, h]

theorem lookupRule_insertRule_self (m : RuleMap) (k : String) (v : Rule) :
    lookupRule (insertRule m k v) k = some v := by
  induction m with
  | nil => simp [insertRule, lookupRule]
  | cons p rest ih =>
    by_cases hpk : p.1 = k
    · simp only [insertRule, if_pos hpk]
      exact lookupRule_cons_of_eq rest rfl
    · simp only [insertRule, if_neg hpk]
      rw [lookupRule_cons_of_ne _ hpk]
      exact ih

theorem lookupRule_insertRule_ne {k' k : String} (m : RuleMap) (v : Rule)
    (h : k' ≠ k) :
    lookupRule (insertRule m k v) k' = lookupRule m k' := by
  have hkk : ¬ ((k, v).1 = k') := fun hc => h hc.symm
  induction m with
  | nil =>
    simp only [insertRule]
    rw [lookupRule_cons_of_ne _ hkk]
  | cons p rest ih =>
    by_cases hpk : p.1 = k
    · have hp' : ¬ (p.1 = k') := by rw [hpk]; exact fun hc => h hc.symm
      simp only [insertRule, if_pos hpk]
      rw [lookupRule_cons_of_ne _ hkk, lookupRule_cons_of_ne _ hp']
    · by_cases hp' : p.1 = k'
      · simp only [insertRule, if_neg hpk]
        rw [lookupRule_cons_of_eq _ hp', lookupRule_cons_of_eq _ hp']
      · simp only [insertRule, if_neg hpk]
        rw [lookupRule_cons_of_ne _ hp', lookupRule_cons_of_ne _ hp']
        exact ih

theorem mapClosed_insertRule {m : RuleMap} {k : String} {v : Rule}
    (hm : MapClosed m) (hv : ∀ s ∈ ruleSymbols v, hasKey m s = true) :
    MapClosed (insertRule m k v) := by
  intro p hp s hs
  rcases mem_insertRule hp with h | h
  · exact hasKey_insertRule_mono k v (hm p h s hs)
  · refine hasKey_insertRule_mono k v (hv s ?_)
    rw [h] at hs
    exact hs

/-! ### Characterisation of the compiling functions -/

theorem gen_leaf_ok {path : String} {f : SchemaField} {m m' : RuleMap}
    (h : gen_leaf path f m = .ok m') :
    ∃ s, m' = insertRule m path (.pattern s) := by
  unfold gen_leaf at h
  cases hfind : f.attrs.find? (fun attr => attr.path == "rust_sitter::leaf") with
  | none =>
    rw [hfind] at h
    simp [unwrapOpt, Bind.bind, Except.bind] at h
  | some a =>
    rw [hfind] at h
    simp only [unwrapOpt, Bind.bind, Except.bind] at h
    cases hargs : a.args with
    | none =>
      rw [hargs] at h
      simp at h
    | some params =>
      rw [hargs] at h
      simp only at h
      cases hpat : (params.find? (fun param => param.1 == "pattern")).map
          (fun p => p.2) with
      | none =>
        rw [hpat] at h
        simp [throw, throwThe, MonadExceptOf.throw] at h
      | some e =>
        rw [hpat] at h
        cases e with
        | nonLit =>
          simp [throw, throwThe, MonadExceptOf.throw] at h
        | lit l =>
          cases l with
          | str s =>
            simp only [pure, Except.pure, Except.ok.injEq] at h
            exact ⟨s, h.symm⟩
          | other =>
            simp [throw, throwThe, MonadExceptOf.throw] at h

theorem gen_leaf_fold_props (path : String) (l : List (Nat × SchemaField)) :
    ∀ m m' : RuleMap,
      l.foldlM (fun out p => gen_leaf (fieldKey path p) p.2 out) m = .ok m' →
      (∀ k, hasKey m k = true → hasKey m' k = true) ∧
      (∀ p ∈ l, hasKey m' (fieldKey path p) = true) ∧
      (MapClosed m → MapClosed m') ∧
      (∀ k, (∀ p ∈ l, fieldKey path p ≠ k) →
        lookupRule m' k = lookupRule m k) := by
  induction l with
  | nil =>
    intro m m' h
    simp only [List.foldlM, pure, Except.pure, Except.ok.injEq] at h
    subst h
    exact ⟨fun _ hk => hk, by simp, fun hc => hc, fun _ _ => rfl⟩
  | cons p l ih =>
    intro m m' h
    simp only [List.foldlM, Bind.bind, Except.bind] at h
    cases hg : gen_leaf (fieldKey path p) p.2 m with
    | error e => rw [hg] at h; cases h
    | ok m1 =>
      rw [hg] at h
      obtain ⟨s, hm1⟩ := gen_leaf_ok hg
      obtain ⟨mono, keys, closed, lkp⟩ := ih m1 m' h
      refine ⟨?_, ?_, ?_, ?_⟩
      · intro k hk
        exact mono k (by rw [hm1]; exact hasKey_insertRule_mono _ _ hk)
      · intro q hq
        rcases List.mem_cons.mp hq with hq | hq
        · rw [hq]
          exact mono _ (by rw [hm1]; exact hasKey_insertRule_self _ _ _)
        · exact keys q hq
      · intro hc
        refine closed ?_
        rw [hm1]
        exact mapClosed_insertRule hc (by simp [ruleSymbols])
      · intro k hk
        rw [lkp k (fun q hq => hk q (List.mem_cons_of_mem _ hq)), hm1]
        exact lookupRule_insertRule_ne _ _
          (Ne.symm (hk p (List.mem_cons_self _ _)))

theorem gen_enum_variant_ok {path : String} {v : Variant} {m m' : RuleMap}
    (h : gen_enum_variant path v m = .ok m') :
    ∃ mid,
      v.fields.enum.foldlM
        (fun out p => gen_leaf (fieldKey path p) p.2 out) m = .ok mid ∧
      m' = insertRule mid path
        (.seq (v.fields.enum.map (fun p => .symbol (fieldKey path p)))) := by
  unfold gen_enum_variant at h
  simp only [Bind.bind, Except.bind] at h
  cases hf : v.fields.enum.foldlM
      (fun out p => gen_leaf (fieldKey path p) p.2 out) m with
  | error e => rw [hf] at h; cases h
  | ok mid =>
    rw [hf] at h
    simp only [pure, Except.pure, Except.ok.injEq] at h
    exact ⟨mid, rfl, h.symm⟩

theorem gen_enum_variant_props {path : String} {v : Variant} {m m' : RuleMap}
    (h : gen_enum_variant path v m = .ok m') :
    (∀ k, hasKey m k = true → hasKey m' k = true) ∧
    hasKey m' path = true ∧
    (MapClosed m → MapClosed m') ∧
    (∀ k, (∀ kk ∈ variantKeys path v, kk ≠ k) →
      lookupRule m' k = lookupRule m k) := by
  obtain ⟨mid, hf, hm'⟩ := gen_enum_variant_ok h
  obtain ⟨mono, keys, closed, lkp⟩ := gen_leaf_fold_props path _ _ _ hf
  subst hm'
  refine ⟨?_, ?_, ?_, ?_⟩
  · intro k hk
    exact hasKey_insertRule_mono _ _ (mono k hk)
  · exact hasKey_insertRule_self _ _ _
  · intro hc
    refine mapClosed_insertRule (closed hc) ?_
    intro s hs
    simp only [ruleSymbols, List.map_map, List.mem_map] at hs
    obtain ⟨p, hp, hps⟩ := hs
    rw [← hps]
    exact keys p hp
  · intro k hk
    have hpath : path ≠ k := hk path (by simp [variantKeys])
    rw [lookupRule_insertRule_ne _ _ (Ne.symm hpath)]
    refine lkp k (fun p hp => hk (fieldKey path p) ?_)
    simp only [variantKeys]
    exact List.mem_cons_of_mem _ (List.mem_map_of_mem _ hp)

theorem gen_variants_fold_props (eid : String) (l : List Variant) :
    ∀ m m' : RuleMap,
      l.foldlM
        (fun rules v => gen_enum_variant (variantPath eid v) v rules) m =
        .ok m' →
      (∀ k, hasKey m k = true → hasKey m' k = true) ∧
      (∀ v ∈ l, hasKey m' (variantPath eid v) = true) ∧
      (MapClosed m → MapClosed m') ∧
      (∀ k, (∀ v ∈ l, ∀ kk ∈ variantKeys (variantPath eid v) v, kk ≠ k) →
        lookupRule m' k = lookupRule m k) := by
  induction l with
  | nil =>
    intro m m' h
    simp only [List.foldlM, pure, Except.pure, Except.ok.injEq] at h
    subst h
    exact ⟨fun _ hk => hk, by simp, fun hc => hc, fun _ _ => rfl⟩
  | cons v l ih =>
    intro m m' h
    simp only [List.foldlM, Bind.bind, Except.bind] at h
    cases hg : gen_enum_variant (variantPath eid v) v m with
    | error e => rw [hg] at h; cases h
    | ok m1 =>
      rw [hg] at h
      obtain ⟨mono1, hkey1, closed1, lkp1⟩ := gen_enum_variant_props hg
      obtain ⟨mono, keys, closed, lkp⟩ := ih m1 m' h
      refine ⟨?_, ?_, ?_, ?_⟩
      · intro k hk
        exact mono k (mono1 k hk)
      · intro w hw
        rcases List.mem_cons.mp hw with hw | hw
        · rw [hw]
          exact mono _ hkey1
        · exact keys w hw
      · intro hc
        exact closed (closed1 hc)
      · intro k hk
        rw [lkp k (fun w hw => hk w (List.mem_cons_of_mem _ hw))]
        exact lkp1 k (hk v (List.mem_cons_self _ _))

theorem gen_enum_ok {e : EnumDef} {m m' : RuleMap}
    (h : gen_enum e m = .ok m') :
    ∃ mid,
      e.variants.foldlM
        (fun rules v => gen_enum_variant (variantPath e.ident v) v rules) m =
        .ok mid ∧
      m' = insertRule mid e.ident
        (.choice (e.variants.map
          (fun v => .symbol (variantPath e.ident v)))) := by
  unfold gen_enum at h
  simp only [Bind.bind, Except.bind] at h
  cases hf : e.variants.foldlM
      (fun rules v => gen_enum_variant (variantPath e.ident v) v rules) m with
  | error e' => rw [hf] at h; cases h
  | ok mid =>
    rw [hf] at h
    simp only [pure, Except.pure, Except.ok.injEq] at h
    exact ⟨mid, rfl, h.symm⟩

theorem gen_enum_props {e : EnumDef} {m m' : RuleMap}
    (h : gen_enum e m = .ok m') :
    (∀ k, hasKey m k = true → hasKey m' k = true) ∧
    hasKey m' e.ident = true ∧
    (MapClosed m → MapClosed m') ∧
    (∀ k, (∀ kk ∈ enumKeys e, kk ≠ k) →
      lookupRule m' k = lookupRule m k) := by
  obtain ⟨mid, hf, hm'⟩ := gen_enum_ok h
  obtain ⟨mono, keys, closed, lkp⟩ := gen_variants_fold_props e.ident _ _ _ hf
  subst hm'
  refine ⟨?_, ?_, ?_, ?_⟩
  · intro k hk
    exact hasKey_insertRule_mono _ _ (mono k hk)
  · exact hasKey_insertRule_self _ _ _
  · intro hc
    refine mapClosed_insertRule (closed hc) ?_
    intro s hs
    simp only [ruleSymbols, List.map_map, List.mem_map] at hs
    obtain ⟨v, hv, hvs⟩ := hs
    rw [← hvs]
    exact keys v hv
  · intro k hk
    have hident : e.ident ≠ k := hk e.ident (by simp [enumKeys])
    rw [lookupRule_insertRule_ne _ _ (Ne.symm hident)]
    refine lkp k ?_
    intro v hv kk hkk
    refine hk kk ?_
    simp only [enumKeys, List.mem_cons, List.mem_flatten, List.mem_map]
    exact Or.inr ⟨variantKeys (variantPath e.ident v) v, ⟨v, hv, rfl⟩, hkk⟩

theorem gen_items_fold_props (l : List Item) :
    ∀ m m' : RuleMap,
      l.foldlM gen_item m = .ok m' →
      (∀ k, hasKey m k = true → hasKey m' k = true) ∧
      (MapClosed m → MapClosed m') ∧
      (∀ k, (∀ c ∈ l, ∀ kk ∈ itemKeys c, kk ≠ k) →
        lookupRule m' k = lookupRule m k) := by
  induction l with
  | nil =>
    intro m m' h
    simp only [List.foldlM, pure, Except.pure, Except.ok.injEq] at h
    subst h
    exact ⟨fun _ hk => hk, fun hc => hc, fun _ _ => rfl⟩
  | cons c l ih =>
    intro m m' h
    simp only [List.foldlM, Bind.bind, Except.bind] at h
    cases hg : gen_item m c with
    | error e => rw [hg] at h; cases h
    | ok m1 =>
      rw [hg] at h
      obtain ⟨mono, closed, lkp⟩ := ih m1 m' h
      cases c with
      | enumItem e =>
        obtain ⟨mono1, _, closed1, lkp1⟩ :=
          gen_enum_props (show gen_enum e m = .ok m1 from hg)
        refine ⟨fun k hk => mono k (mono1 k hk),
          fun hc => closed (closed1 hc), ?_⟩
        intro k hk
        rw [lkp k (fun c hc => hk c (List.mem_cons_of_mem _ hc))]
        exact lkp1 k (hk (.enumItem e) (List.mem_cons_self _ _))
      | modItem attrs ident content =>
        simp [gen_item, throw, throwThe, MonadExceptOf.throw] at hg
      | otherItem =>
        simp [gen_item, throw, throwThe, MonadExceptOf.throw] at hg

theorem generate_grammar_ok {mod : ItemMod} {g : GrammarObject}
    (h : generate_grammar mod = .ok g) :
    ∃ contents R rules,
      mod.content = some contents ∧
      contents.findSome? item_root = some R ∧
      contents.foldlM gen_item
        (insertRule [] "source_file"
          (.aliasRule false R (.symbol R))) = .ok rules ∧
      g = ⟨"grammar", rules⟩ := by
  unfold generate_grammar at h
  cases hc : mod.content with
  | none =>
    rw [hc] at h
    simp [unwrapOpt, Bind.bind, Except.bind] at h
  | some contents =>
    rw [hc] at h
    simp only [unwrapOpt, Bind.bind, Except.bind] at h
    cases hr : contents.findSome? item_root with
    | none =>
      rw [hr] at h
      simp [throw, throwThe, MonadExceptOf.throw] at h
    | some R =>
      rw [hr] at h
      simp only [pure, Except.pure] at h
      cases hf : contents.foldlM gen_item
          (insertRule [] "source_file"
            (.aliasRule false R (.symbol R))) with
      | error e => rw [hf] at h; cases h
      | ok rules =>
        rw [hf] at h
        simp only [pure, Except.pure, Except.ok.injEq] at h
        exact ⟨contents, R, rules, rfl, hr, hf, h.symm⟩

/-! ### The claims -/

/-- C1: for a schema group containing exactly one nonterminal `Expr` with
one production `Number` having one unnamed leaf field whose pattern is
`\d+`, with `Expr` marked as root, compiling the group yields a
GrammarObject whose rule map contains exactly the rules `source_file`
(an Alias with named=false, value `Expr`, content a Symbol reference to
`Expr`), `Expr` (a Choice whose single member is a Symbol reference to
`Expr_Number`), `Expr_Number` (a Sequence whose single member is a Symbol
reference to `Expr_Number_0`), and `Expr_Number_0` (a Pattern with text
`\d+`). -/
theorem scenario1_grammar :
    generate_grammar scenario1 = .ok
      { name := "grammar",
        rules := [("source_file", .aliasRule false "Expr" (.symbol "Expr")),
                  ("Expr_Number_0", .pattern "\\d+"),
                  ("Expr_Number", .seq [.symbol "Expr_Number_0"]),
                  ("Expr", .choice [.symbol "Expr_Number"])] } := by rfl

/-- C5 (divergence witness): a leaf field whose `pattern` value is a
non-string literal makes the extractor abort the process with
`panic!("Expected pattern to be a string literal")`, and a leaf annotation
with no `pattern` parameter makes it abort with `todo!()` — in neither
case is a recoverable, reported error value produced. -/
theorem malformed_leaf_aborts :
    gen_leaf "Expr_Number_0" nonStringPatternField [] =
      .error (.panicMsg "Expected pattern to be a string literal") ∧
    gen_leaf "Expr_Number_0" missingPatternField [] =
      .error .todoUnimplemented := ⟨rfl, rfl⟩

/-- C6 (divergence witness): a group with zero root-marked nonterminals
makes `generate_grammar` abort the process via `expect` (no structured
`MissingRootAnnotation` error value), and a group with two root-marked
nonterminals `A` and `B` is silently compiled with the first match `A` as
root instead of failing with an `AmbiguousRootAnnotation` error. -/
theorem root_resolution_diverges :
    generate_grammar noRootMod =
      .error (.expectMsg
        "Each parser must have the root type annotated with `#[rust_sitter::language]`") ∧
    generate_grammar twoRootsMod = .ok
      { name := "grammar",
        rules := [("source_file", .aliasRule false "A" (.symbol "A")),
                  ("A", .choice []),
                  ("B", .choice [])] } := ⟨rfl, rfl⟩

/-- C7 (divergence witness): in `duplicateKeyMod` the variant `B` of enum
`A` and the enum named `A_B` both compile to the rule identifier `A_B`;
compilation nevertheless succeeds and the later Choice rule silently
overwrites the earlier Sequence rule at that key — no `DuplicateRuleName`
error exists in the code. -/
theorem duplicate_key_overwrites :
    generate_grammar duplicateKeyMod = .ok
      { name := "grammar",
        rules := [("source_file", .aliasRule false "A" (.symbol "A")),
                  ("A_B", .choice []),
                  ("A", .choice [.symbol "A_B"])] } ∧
    lookupRule [("source_file", .aliasRule false "A" (.symbol "A")),
                ("A_B", Rule.choice []),
                ("A", .choice [.symbol "A_B"])] "A_B" =
      some (.choice []) := ⟨rfl, rfl⟩

/-- C4 (counterexample): in the successfully compiled group whose root
nonterminal is `source` with a production `file`, the production's
Sequence rule overwrites the `source_file` alias, so the rule keyed
`source_file` is not the Alias the claim requires. -/
theorem sourceFile_alias_cx :
    generate_grammar sourceFileClashMod = .ok
      { name := "grammar",
        rules := [("source_file", .seq []),
                  ("source", .choice [.symbol "source_file"])] } ∧
    lookupRule [("source_file", Rule.seq []),
                ("source", .choice [.symbol "source_file"])] "source_file" ≠
      some (.aliasRule false "source" (.symbol "source")) :=
  ⟨rfl, by decide⟩

theorem findSome?_eq_filterMap_head? (f : α → Option β) (l : List α) :
    l.findSome? f = (l.filterMap f).head? := by
  induction l with
  | nil => rfl
  | cons a l ih =>
    rw [List.findSome?_cons, List.filterMap_cons]
    cases ha : f a with
    | none => exact ih
    | some b => rfl

/-- C2: for every compiled GrammarObject and for every Sequence or Choice
rule in its rule map, every Symbol name referenced by that rule's members
is a key present in that same GrammarObject's rule map. -/
theorem generate_grammar_closed {m : ItemMod} {g : GrammarObject}
    (h : generate_grammar m = .ok g) : MapClosed g.rules := by
  obtain ⟨contents, R, rules, _, _, hf, hg⟩ := generate_grammar_ok h
  obtain ⟨_, closed, _⟩ := gen_items_fold_props contents _ _ hf
  rw [hg]
  refine closed ?_
  intro p hp s hs
  have hpe : p = ("source_file", Rule.aliasRule false R (.symbol R)) := by
    simpa [insertRule] using hp
  rw [hpe] at hs
  simp [ruleSymbols] at hs

/-- Witness for C2 at Scenario 1: the `Expr_Number` symbol referenced by
the Choice rule `Expr` is a key of the same rule map. -/
theorem generate_grammar_closed_witness :
    hasKey [("source_file", Rule.aliasRule false "Expr" (.symbol "Expr")),
            ("Expr_Number_0", .pattern "\\d+"),
            ("Expr_Number", .seq [.symbol "Expr_Number_0"]),
            ("Expr", .choice [.symbol "Expr_Number"])] "Expr_Number" = true :=
  @generate_grammar_closed scenario1
    ⟨"grammar",
     [("source_file", .aliasRule false "Expr" (.symbol "Expr")),
      ("Expr_Number_0", .pattern "\\d+"),
      ("Expr_Number", .seq [.symbol "Expr_Number_0"]),
      ("Expr", .choice [.symbol "Expr_Number"])]⟩ rfl
    ("Expr", .choice [.symbol "Expr_Number"]) (by decide)
    "Expr_Number" (by decide)

/-- C3: the Sequence rule compiled for a production lists Symbol
references to the fields' identities in exactly the fields' declaration
order, and the Choice rule compiled for a nonterminal lists Symbol
references to the productions' identities in exactly the productions'
declaration order. -/
theorem rule_member_order :
    (∀ (path : String) (v : Variant) (out out' : RuleMap),
      gen_enum_variant path v out = .ok out' →
      lookupRule out' path =
        some (.seq (v.fields.enum.map
          (fun p => .symbol (fieldKey path p))))) ∧
    (∀ (e : EnumDef) (rules rules' : RuleMap),
      gen_enum e rules = .ok rules' →
      lookupRule rules' e.ident =
        some (.choice (e.variants.map
          (fun v => .symbol (variantPath e.ident v))))) := by
  constructor
  · intro path v out out' h
    obtain ⟨mid, _, hm'⟩ := gen_enum_variant_ok h
    rw [hm']
    exact lookupRule_insertRule_self _ _ _
  · intro e rules rules' h
    obtain ⟨mid, _, hm'⟩ := gen_enum_ok h
    rw [hm']
    exact lookupRule_insertRule_self _ _ _

/-- Witness for C3: the production `Expr_Number` of Scenario 1 and the
two-production nonterminal `E` of Scenario 2, at concrete inputs. -/
theorem rule_member_order_witness :
    (lookupRule [("Expr_Number_0", Rule.pattern "\\d+"),
                 ("Expr_Number", Rule.seq [.symbol "Expr_Number_0"])]
        "Expr_Number" = some (.seq [.symbol "Expr_Number_0"])) ∧
    (lookupRule [("E_A", Rule.seq []), ("E_B", Rule.seq []),
                 ("E", Rule.choice [.symbol "E_A", .symbol "E_B"])] "E" =
       some (.choice [.symbol "E_A", .symbol "E_B"])) :=
  ⟨rule_member_order.1 "Expr_Number" ⟨"Number", [⟨none, [leafAttr "\\d+"]⟩]⟩
     [] [("Expr_Number_0", .pattern "\\d+"),
         ("Expr_Number", .seq [.symbol "Expr_Number_0"])] rfl,
   rule_member_order.2 ⟨[langAttr], "E", [⟨"A", []⟩, ⟨"B", []⟩]⟩
     [] [("E_A", .seq []), ("E_B", .seq []),
         ("E", .choice [.symbol "E_A", .symbol "E_B"])] rfl⟩

/-- C4 (amended): for every successfully compiled group whose single
root-marked nonterminal is `R`, provided no nonterminal, production or
field identity in the group equals `source_file`, the rule map contains a
rule keyed `source_file` that is an Alias with named=false, value `R`,
and content a Symbol reference to `R`. -/
theorem sourceFile_alias_of_no_clash {attrs : List Attr} {id : String}
    {items : List Item} {R : String} {g : GrammarObject}
    (hroot : rootsOf items = [R])
    (hkeys : ∀ c ∈ items, ∀ kk ∈ itemKeys c, kk ≠ "source_file")
    (h : generate_grammar ⟨attrs, id, some items⟩ = .ok g) :
    lookupRule g.rules "source_file" =
      some (.aliasRule false R (.symbol R)) := by
  obtain ⟨contents, R', rules, hc, hr, hf, hg⟩ := generate_grammar_ok h
  have hci : items = contents := Option.some.inj hc
  subst hci
  have hR : R' = R := by
    rw [findSome?_eq_filterMap_head? item_root items] at hr
    have : rootsOf items = items.filterMap item_root := rfl
    rw [← this, hroot] at hr
    simpa using hr.symm
  subst hR
  obtain ⟨_, _, lkp⟩ := gen_items_fold_props items _ _ hf
  rw [hg]
  rw [lkp "source_file" hkeys]
  exact lookupRule_insertRule_self _ _ _

/-- Witness for C4 (amended) at Scenario 1. -/
theorem sourceFile_alias_witness :
    lookupRule [("source_file", Rule.aliasRule false "Expr" (.symbol "Expr")),
                ("Expr_Number_0", .pattern "\\d+"),
                ("Expr_Number", .seq [.symbol "Expr_Number_0"]),
                ("Expr", .choice [.symbol "Expr_Number"])] "source_file" =
      some (.aliasRule false "Expr" (.symbol "Expr")) :=
  @sourceFile_alias_of_no_clash [grammarAttr] "grammar"
    [.enumItem ⟨[langAttr], "Expr", [⟨"Number", [⟨none, [leafAttr "\\d+"]⟩]⟩]⟩]
    "Expr"
    ⟨"grammar",
     [("source_file", .aliasRule false "Expr" (.symbol "Expr")),
      ("Expr_Number_0", .pattern "\\d+"),
      ("Expr_Number", .seq [.symbol "Expr_Number_0"]),
      ("Expr", .choice [.symbol "Expr_Number"])]⟩
    (by decide) (by decide) rfl

/-- C9: a production with zero fields compiles to a Sequence rule with an
empty member list, a nonterminal with zero productions compiles to a
Choice rule with an empty member list, and (Scenario 2) a group whose
nonterminal has two zero-field productions still compiles successfully,
with the Choice spanning both sibling productions. -/
theorem empty_members_ok :
    (∀ (path ident : String) (out : RuleMap),
      gen_enum_variant path ⟨ident, []⟩ out =
        .ok (insertRule out path (.seq []))) ∧
    (∀ (attrs : List Attr) (ident : String) (rules : RuleMap),
      gen_enum ⟨attrs, ident, []⟩ rules =
        .ok (insertRule rules ident (.choice []))) ∧
    generate_grammar scenario2 = .ok
      { name := "grammar",
        rules := [("source_file", .aliasRule false "E" (.symbol "E")),
                  ("E_A", .seq []), ("E_B", .seq []),
                  ("E", .choice [.symbol "E_A", .symbol "E_B"])] } :=
  ⟨fun _ _ _ => rfl, fun _ _ _ => rfl, rfl⟩

/-- C10: every field, named or positional, is routed through leaf
extraction unconditionally; a field without a `rust_sitter::leaf`
attribute, or whose attribute arguments do not parse as `name = value`
pairs, makes the compiler abort (the `unwrap` on `None`), so pattern-less
plain fields are unsupported — shown in general and on a whole group
whose only production has an attribute-less field. -/
theorem plain_fields_unsupported :
    (∀ (path : String) (f : SchemaField) (out : RuleMap),
      f.attrs.find? (fun attr => attr.path == "rust_sitter::leaf") = none →
      gen_leaf path f out = .error .unwrapNone) ∧
    (∀ (path : String) (f : SchemaField) (out : RuleMap) (a : Attr),
      f.attrs.find? (fun attr => attr.path == "rust_sitter::leaf") = some a →
      a.args = none →
      gen_leaf path f out = .error .unwrapNone) ∧
    generate_grammar plainFieldMod = .error .unwrapNone := by
  refine ⟨?_, ?_, rfl⟩
  · intro path f out hfind
    unfold gen_leaf
    rw [hfind]
    rfl
  · intro path f out a hfind hargs
    unfold gen_leaf
    rw [hfind]
    simp only [unwrapOpt, Bind.bind, Except.bind]
    rw [hargs]

/-- Witness for C10: a plain (attribute-less) field and a field whose
leaf-attribute arguments do not parse, at concrete inputs. -/
theorem plain_fields_unsupported_witness :
    gen_leaf "Expr_Number_0" plainField [] = .error .unwrapNone ∧
    gen_leaf "Expr_Number_0" unparsableLeafField [] = .error .unwrapNone :=
  ⟨plain_fields_unsupported.1 "Expr_Number_0" plainField [] rfl,
   plain_fields_unsupported.2.1 "Expr_Number_0" unparsableLeafField []
     ⟨"rust_sitter::leaf", none⟩ rfl rfl⟩

theorem grammarsOfMods_append (l1 l2 : List ItemMod) :
    grammarsOfMods (l1 ++ l2) =
      grammarsOfMods l1 >>= (fun gs1 =>
        grammarsOfMods l2 >>= (fun gs2 => pure (gs1 ++ gs2))) := by
  induction l1 with
  | nil =>
    rw [List.nil_append]
    cases h2 : grammarsOfMods l2 <;>
      simp [grammarsOfMods, Bind.bind, Except.bind, pure, Except.pure, h2]
  | cons m tl ih =>
    rw [List.cons_append]
    cases hg : generate_grammar m with
    | error e =>
      simp [grammarsOfMods, Bind.bind, Except.bind, hg]
    | ok g =>
      cases ht : grammarsOfMods tl with
      | error e =>
        have : grammarsOfMods (tl ++ l2) = .error e := by
          rw [ih, ht]
          rfl
        simp [grammarsOfMods, Bind.bind, Except.bind, pure, Except.pure,
          hg, this, ht]
      | ok gs1 =>
        cases h2 : grammarsOfMods l2 with
        | error e =>
          have : grammarsOfMods (tl ++ l2) = .error e := by
            rw [ih, ht, h2]
            rfl
          simp [grammarsOfMods, Bind.bind, Except.bind, pure, Except.pure,
            hg, this, ht, h2]
        | ok gs2 =>
          have : grammarsOfMods (tl ++ l2) = .ok (gs1 ++ gs2) := by
            rw [ih, ht, h2]
            rfl
          simp [grammarsOfMods, Bind.bind, Except.bind, pure, Except.pure,
            hg, this, ht, h2]

mutual

theorem generate_all_grammars_spec (i : Item) (out : List GrammarObject) :
    generate_all_grammars i out =
      Except.map (fun gs => out ++ gs) (grammarsOfMods (grammarMods i)) :=
  match i with
  | .enumItem e => by
    simp [generate_all_grammars, grammarMods, grammarsOfMods, Except.map,
      pure, Except.pure]
  | .otherItem => by
    simp [generate_all_grammars, grammarMods, grammarsOfMods, Except.map,
      pure, Except.pure]
  | .modItem attrs ident content => by
    cases content with
    | none =>
      rw [generate_all_grammars]
      by_cases hm : attrs.any (fun a => a.path == "rust_sitter::grammar")
      · cases hg : generate_grammar ⟨attrs, ident, none⟩ <;>
          simp [grammarMods, grammarsOfMods, Except.map, Bind.bind,
            Except.bind, pure, Except.pure, hm, hg]
      · simp [grammarMods, grammarsOfMods, Except.map, Bind.bind,
          Except.bind, pure, Except.pure, hm]
    | some items =>
      rw [generate_all_grammars]
      have ih := generate_all_grammars_list_spec items out
      rw [ih]
      by_cases hm : attrs.any (fun a => a.path == "rust_sitter::grammar")
      · have happ := grammarsOfMods_append (grammarModsList items)
          [⟨attrs, ident, some items⟩]
        cases hGi : grammarsOfMods (grammarModsList items) with
        | error e =>
          simp [grammarMods, hm, happ, hGi, Except.map, Bind.bind,
            Except.bind]
        | ok gs1 =>
          cases hg : generate_grammar ⟨attrs, ident, some items⟩ <;>
            simp [grammarMods, hm, happ, hGi, hg, grammarsOfMods,
              Except.map, Bind.bind, Except.bind, pure, Except.pure]
      · cases hGi : grammarsOfMods (grammarModsList items) <;>
          simp [grammarMods, hm, hGi, Except.map, Bind.bind, Except.bind,
            pure, Except.pure]

theorem generate_all_grammars_list_spec (items : List Item)
    (out : List GrammarObject) :
    generate_all_grammars_list items out =
      Except.map (fun gs => out ++ gs)
        (grammarsOfMods (grammarModsList items)) :=
  match items with
  | [] => by
    simp [generate_all_grammars_list, grammarModsList, grammarsOfMods,
      Except.map, pure, Except.pure]
  | i :: rest => by
    rw [generate_all_grammars_list]
    have ih1 := generate_all_grammars_spec i out
    rw [ih1]
    have happ := grammarsOfMods_append (grammarMods i) (grammarModsList rest)
    cases hGi : grammarsOfMods (grammarMods i) with
    | error e =>
      simp [grammarModsList, happ, hGi, Except.map, Bind.bind, Except.bind]
    | ok gs1 =>
      have ih2 := generate_all_grammars_list_spec rest (out ++ gs1)
      cases hGr : grammarsOfMods (grammarModsList rest) <;>
        simp [grammarModsList, happ, hGi, hGr, ih2, Except.map, Bind.bind,
          Except.bind, pure, Except.pure, List.append_assoc]

end

/-- C8: for every schema tree, `generate_all_grammars` discovers the
grammar-marked modules at every nesting depth (exactly the modules listed
by the recursive `grammarMods` walk) and appends one GrammarObject per
discovered group, in discovery order; concretely, a tree with two
grammar-marked modules at different nesting depths inside unmarked
containers yields the two corresponding grammar objects. -/
theorem grammar_discovery :
    (∀ (i : Item) (out : List GrammarObject),
      generate_all_grammars i out =
        Except.map (fun gs => out ++ gs)
          (grammarsOfMods (grammarMods i))) ∧
    generate_all_grammars nestedGrammarsItem [] = .ok
      [⟨"grammar", [("source_file", .aliasRule false "A" (.symbol "A")),
                    ("A", .choice [])]⟩,
       ⟨"grammar", [("source_file", .aliasRule false "B" (.symbol "B")),
                    ("B", .choice [])]⟩] :=
  ⟨generate_all_grammars_spec, rfl⟩

end RustSitter
